import Mathlib

set_option maxRecDepth 2000

/-!
Shallow embedding of `src/minspritz.c` (a Spritz sponge implementation with
N = 256) and proofs about it.

Modelling conventions:
* The C struct `minspritz_s` has six `uint8_t` cursors `i j k z a w` and a
  256-entry `uint8_t` array `S`.  Each `uint8_t` field is modelled as
  `Fin 256`; addition on `Fin 256` is exactly the wrap-around (mod 256)
  semantics of `uint8_t` arithmetic followed by truncating assignment.
* The permutation array `S` is modelled as a function `Fin 256 → Fin 256`
  (indices are always reduced mod 256 before use in the C code, and values
  are bytes).
* C functions that mutate the struct through a pointer become functions
  `minspritz_s → minspritz_s`; functions that also return a byte return a
  pair.  Byte buffers become `List (Fin 256)`.
-/

/-- The engine state, mirroring `struct minspritz_s`. -/
structure minspritz_s where
  i : Fin 256
  j : Fin 256
  k : Fin 256
  z : Fin 256
  a : Fin 256
  w : Fin 256
  S : Fin 256 → Fin 256

instance : Inhabited minspritz_s :=
  ⟨{ i := 0, j := 0, k := 0, z := 0, a := 0, w := 1, S := fun v => v }⟩

/-- Reduce a natural number mod 256 into an index/byte, as the C code's
`% N` does. -/
def idx (n : Nat) : Fin 256 := ⟨n % 256, by omega⟩

/-- The three-line temp swap of `S[x]` and `S[y]` used throughout the C
code. -/
def swapS (x y : Fin 256) (S : Fin 256 → Fin 256) : Fin 256 → Fin 256 :=
  fun t => if t = x then S y else if t = y then S x else S t

/-- `LOW(b) = b & 0x0f`. -/
def LOW (b : Fin 256) : Fin 16 := ⟨b.val % 16, by omega⟩

/-- `HIGH(b) = (b >> 4) & 0x0f`. -/
def HIGH (b : Fin 256) : Fin 16 := ⟨b.val / 16, by have h := b.isLt; omega⟩

/-- `initialise_state`: overwrites every field, `i=j=k=z=a=0`, `w=1`,
`S` the identity. -/
def initialise_state (_q : minspritz_s) : minspritz_s :=
  { i := 0, j := 0, k := 0, z := 0, a := 0, w := 1, S := fun v => v }

/-- `update`: the single-step mixer.  `i` is advanced first and the new `i`
is used to compute the new `j`, which is used to compute the new `k`;
finally `S[i]` and `S[j]` are swapped (all indices mod 256). -/
def update (q : minspritz_s) : minspritz_s :=
  let i' := q.i + q.w
  let j' := q.k + q.S (q.j + q.S i')
  let k' := i' + q.k + q.S j'
  { q with i := i', j := j', k := k', S := swapS i' j' q.S }

/-- `output`: derives one byte `z = S[j + S[i + S[z + k]]]`, storing it in
`z` and returning it. -/
def output (q : minspritz_s) : Fin 256 × minspritz_s :=
  let z' := q.S (q.j + q.S (q.i + q.S (q.z + q.k)))
  (z', { q with z := z' })

/-- The `for (v=0; v<r; v++) update(q);` loop body of `whip`. -/
def whip_loop : Nat → minspritz_s → minspritz_s
  | 0, q => q
  | r + 1, q => whip_loop r (update q)

/-- `whip(q, r)`: `r` update steps, then `w += 2` (valid for N = 256). -/
def whip (q : minspritz_s) (r : Nat) : minspritz_s :=
  let q1 := whip_loop r q
  { q1 with w := q1.w + 2 }

/-- Position `v` (the low index of the `v`-th compare-swap pair of
`crush`). -/
def lo_ix (v : Fin 128) : Fin 256 := ⟨v.val, by have h := v.isLt; omega⟩

/-- Position `255 - v` (the high index of the `v`-th compare-swap pair of
`crush`). -/
def hi_ix (v : Fin 128) : Fin 256 := ⟨255 - v.val, by omega⟩

/-- One iteration of the `crush` loop: if `S[v] > S[255 - v]`, swap
them. -/
def crush_step (S : Fin 256 → Fin 256) (v : Fin 128) : Fin 256 → Fin 256 :=
  if S (lo_ix v) > S (hi_ix v) then swapS (lo_ix v) (hi_ix v) S else S

/-- The `crush` loop from index `v` upward while `v < 128`; `fuel` bounds
the recursion (`crush` itself runs it with `fuel = 128`, `v = 0`, so the
guard `v < 128` is exactly the C loop condition).  The compare-swap is
written with an inner `let` so that compiled evaluation decides each
comparison once. -/
def crush_loop : Nat → Nat → minspritz_s → minspritz_s
  | 0, _, q => q
  | fuel + 1, v, q =>
    if h : v < 128 then
      let S1 := if q.S (lo_ix ⟨v, h⟩) > q.S (hi_ix ⟨v, h⟩) then
        swapS (lo_ix ⟨v, h⟩) (hi_ix ⟨v, h⟩) q.S else q.S
      crush_loop fuel (v + 1) { q with S := S1 }
    else q

/-- `crush`: for `v` in `0..127`, sort the pair `(S[v], S[255 - v])`. -/
def crush (q : minspritz_s) : minspritz_s :=
  crush_loop 128 0 q

/-- `shuffle`: `whip(2N); crush(); whip(2N); crush(); whip(2N); a = 0`
with `2N = 512`. -/
def shuffle (q : minspritz_s) : minspritz_s :=
  let q1 := whip q 512
  let q2 := crush q1
  let q3 := whip q2 512
  let q4 := crush q3
  let q5 := whip q4 512
  { q5 with a := 0 }

/-- The index `(N/2) + x = 128 + x` targeted by `absorb_nibble` (in bounds
without a `% N`, as the C comment notes, because `x` is a nibble). -/
def nib_ix (x : Fin 16) : Fin 256 := ⟨128 + x.val, by have h := x.isLt; omega⟩

/-- `absorb_nibble(q, x)`: shuffle when the capacity counter has reached
`N/2 = 128`, then swap `S[a]` with `S[N/2 + x]` and bump `a`. -/
def absorb_nibble (q : minspritz_s) (x : Fin 16) : minspritz_s :=
  let q := if q.a = 128 then shuffle q else q
  { q with S := swapS q.a (nib_ix x) q.S, a := q.a + 1 }

/-- `absorb(q, input)`: for each byte in order, absorb the low nibble then
the high nibble. -/
def absorb (q : minspritz_s) (input : List (Fin 256)) : minspritz_s :=
  input.foldl (fun q b => absorb_nibble (absorb_nibble q (LOW b)) (HIGH b)) q

/-- `absorb_stop`: the capacity check and `a += 1`, with no swap. -/
def absorb_stop (q : minspritz_s) : minspritz_s :=
  let q := if q.a = 128 then shuffle q else q
  { q with a := q.a + 1 }

/-- `drip`: shuffle if any absorption is pending, then one `update` and one
`output`. -/
def drip (q : minspritz_s) : Fin 256 × minspritz_s :=
  let q := if 0 < q.a then shuffle q else q
  output (update q)

/-- The `for (v=0; v<r; v++) p[v] = drip(q);` loop of `squeeze`. -/
def squeeze_loop : Nat → minspritz_s → List (Fin 256) × minspritz_s
  | 0, q => ([], q)
  | r + 1, q =>
    let bq := drip q
    let rest := squeeze_loop r bq.2
    (bq.1 :: rest.1, rest.2)

/-- `squeeze(q, r)`: shuffle once if absorption is pending, then emit `r`
bytes by repeated `drip`. -/
def squeeze (q : minspritz_s) (r : Nat) : List (Fin 256) × minspritz_s :=
  let q := if 0 < q.a then shuffle q else q
  squeeze_loop r q

/-- `minspritz_hash(m, m_len, r)` run on an arbitrary starting state `q0`
(the C code uses an uninitialised stack local, which `initialise_state`
overwrites): initialise, absorb the message, `absorb_stop`, absorb the
one-byte output length, squeeze `r` bytes. -/
def minspritz_hash_from (q0 : minspritz_s) (m : List (Fin 256)) (r : Fin 256) :
    List (Fin 256) :=
  let q := initialise_state q0
  let q := absorb q m
  let q := absorb_stop q
  let q := absorb q [r]
  (squeeze q r.val).1

/-- `minspritz_hash(m, m_len, r)`. -/
def minspritz_hash (m : List (Fin 256)) (r : Fin 256) : List (Fin 256) :=
  minspritz_hash_from default m r

/-- `minminspritz_stream(m, m_len)`: initialise, absorb the key, squeeze a
hard-coded 32 bytes.  The function takes no length parameter. -/
def minminspritz_stream (m : List (Fin 256)) : List (Fin 256) :=
  let q := initialise_state default
  let q := absorb q m
  (squeeze q 32).1

/-! ### Basic lemmas about the building blocks -/

/-- The three-line temp swap is composition with the transposition of the
two indices. -/
theorem swapS_eq_comp (x y : Fin 256) (S : Fin 256 → Fin 256) :
    swapS x y S = S ∘ (Equiv.swap x y) := by
  funext t
  by_cases h1 : t = x
  · subst h1
    simp [swapS, Equiv.swap_apply_left]
  · by_cases h2 : t = y
    · subst h2
      simp [swapS, h1, Equiv.swap_apply_right]
    · simp [swapS, h1, h2, Equiv.swap_apply_of_ne_of_ne h1 h2]

theorem bij_swapS {S : Fin 256 → Fin 256} (x y : Fin 256)
    (h : Function.Bijective S) : Function.Bijective (swapS x y S) := by
  rw [swapS_eq_comp]
  exact h.comp (Equiv.swap x y).bijective

theorem swapS_apply_of_ne {S : Fin 256 → Fin 256} {x y t : Fin 256}
    (hx : t ≠ x) (hy : t ≠ y) : swapS x y S t = S t := by
  simp [swapS, hx, hy]

/-- `Fin 256` addition is addition of the values reduced mod 256, exactly
the semantics of `uint8_t` sums truncated on assignment (or reduced by
`% N` before use as an index). -/
theorem idx_fin_add (x y : Fin 256) : x + y = idx (x.val + y.val) := by
  apply Fin.ext
  simp [Fin.add_def, idx]

theorem fin_add3_val (x y z : Fin 256) :
    x + y + z = idx (x.val + y.val + z.val) := by
  apply Fin.ext
  simp [Fin.add_def, idx]

theorem idx_val (n : Nat) : (idx n).val = n % 256 := rfl

/-! ### Field-level descriptions of the primitive operations -/

theorem update_z (q : minspritz_s) : (update q).z = q.z := rfl
theorem update_a (q : minspritz_s) : (update q).a = q.a := rfl
theorem update_w (q : minspritz_s) : (update q).w = q.w := rfl

theorem whip_loop_eq_iterate : ∀ (r : Nat) (q : minspritz_s),
    whip_loop r q = update^[r] q := by
  intro r
  induction r with
  | zero => intro q; rfl
  | succ r ih =>
      intro q
      rw [whip_loop, ih, Function.iterate_succ_apply]

theorem iterate_update_w : ∀ (r : Nat) (q : minspritz_s),
    (update^[r] q).w = q.w := by
  intro r
  induction r with
  | zero => intro q; rfl
  | succ r ih => intro q; rw [Function.iterate_succ_apply, ih, update_w]

theorem whip_w (q : minspritz_s) (r : Nat) : (whip q r).w = q.w + 2 := by
  show (whip_loop r q).w + 2 = q.w + 2
  rw [whip_loop_eq_iterate, iterate_update_w]

/-- `shuffle` unfolded: the fixed whip/crush/whip/crush/whip sequence, then
`a = 0`. -/
theorem shuffle_eq (q : minspritz_s) :
    shuffle q =
      { whip (crush (whip (crush (whip q 512)) 512)) 512 with a := 0 } := by
  simp only [shuffle]

/-- `absorb` on a cons cell: low nibble first, then high nibble, then the
rest of the input. -/
theorem absorb_cons (q : minspritz_s) (b : Fin 256) (l : List (Fin 256)) :
    absorb q (b :: l) =
      absorb (absorb_nibble (absorb_nibble q (LOW b)) (HIGH b)) l := by
  simp only [absorb, List.foldl_cons]

/-- Unfolding the `crush` loop by one iteration, phrased with
`crush_step`. -/
theorem crush_loop_succ (fuel v : Nat) (q : minspritz_s) :
    crush_loop (fuel + 1) v q =
      if h : v < 128 then
        crush_loop fuel (v + 1) { q with S := crush_step q.S ⟨v, h⟩ }
      else q := rfl

theorem crush_step_frame {S : Fin 256 → Fin 256} {v : Fin 128} {t : Fin 256}
    (hlo : t ≠ lo_ix v) (hhi : t ≠ hi_ix v) : crush_step S v t = S t := by
  unfold crush_step
  split
  · exact swapS_apply_of_ne hlo hhi
  · rfl

theorem lo_ix_val (v : Fin 128) : (lo_ix v).val = v.val := rfl
theorem hi_ix_val (v : Fin 128) : (hi_ix v).val = 255 - v.val := rfl

/-- Positions below `v` or above `255 - v` are untouched by the rest of the
`crush` loop. -/
theorem crush_loop_frame : ∀ (fuel v : Nat) (q : minspritz_s) (t : Fin 256),
    t.val < v ∨ 255 - v < t.val → (crush_loop fuel v q).S t = q.S t := by
  intro fuel
  induction fuel with
  | zero => intro v q t _; rfl
  | succ fuel ih =>
      intro v q t ht
      rw [crush_loop_succ]
      split
      · next h =>
          rw [ih (v + 1) _ t (by omega)]
          refine crush_step_frame ?_ ?_
          · intro he
            have : t.val = v := by rw [he, lo_ix_val]
            omega
          · intro he
            have : t.val = 255 - v := by rw [he, hi_ix_val]
            omega
      · rfl

/-- After `crush_step`, the pair at `v` is sorted. -/
theorem crush_step_post (S : Fin 256 → Fin 256) (v : Fin 128) :
    crush_step S v (lo_ix v) ≤ crush_step S v (hi_ix v) := by
  have hne : lo_ix v ≠ hi_ix v := by
    intro he
    have hv := v.isLt
    have : (lo_ix v).val = (hi_ix v).val := by rw [he]
    rw [lo_ix_val, hi_ix_val] at this
    omega
  unfold crush_step
  split
  · next hgt =>
      have h1 : swapS (lo_ix v) (hi_ix v) S (lo_ix v) = S (hi_ix v) := by
        simp [swapS]
      have h2 : swapS (lo_ix v) (hi_ix v) S (hi_ix v) = S (lo_ix v) := by
        simp [swapS, hne.symm]
      rw [h1, h2]
      exact le_of_lt hgt
  · next hle => exact le_of_not_lt hle

/-- Once the loop has passed index `u`, the pair at `u` is sorted and stays
sorted. -/
theorem crush_loop_post : ∀ (fuel v : Nat) (q : minspritz_s),
    fuel + v = 128 → ∀ u : Fin 128, v ≤ u.val →
    (crush_loop fuel v q).S (lo_ix u) ≤ (crush_loop fuel v q).S (hi_ix u) := by
  intro fuel
  induction fuel with
  | zero =>
      intro v q hfv u hu
      have := u.isLt
      omega
  | succ fuel ih =>
      intro v q hfv u hu
      have hv : v < 128 := by omega
      rw [crush_loop_succ]
      rw [dif_pos hv]
      rcases Nat.lt_or_ge v u.val with hlt | hge
      · exact ih (v + 1) _ (by omega) u (by omega)
      · have huv : u = ⟨v, hv⟩ := by
          apply Fin.ext
          show u.val = v
          omega
        subst huv
        rw [crush_loop_frame fuel (v + 1) _ (lo_ix ⟨v, hv⟩)
              (by rw [lo_ix_val]; omega),
            crush_loop_frame fuel (v + 1) _ (hi_ix ⟨v, hv⟩)
              (by rw [hi_ix_val]; omega)]
        exact crush_step_post q.S ⟨v, hv⟩

/-- If every pair is already sorted, the `crush` loop is the identity. -/
theorem crush_loop_fix {q : minspritz_s}
    (hs : ∀ u : Fin 128, q.S (lo_ix u) ≤ q.S (hi_ix u)) :
    ∀ (fuel v : Nat), crush_loop fuel v q = q := by
  intro fuel
  induction fuel with
  | zero => intro v; rfl
  | succ fuel ih =>
      intro v
      rw [crush_loop_succ]
      split
      · next h =>
          have hstep : crush_step q.S ⟨v, h⟩ = q.S := by
            unfold crush_step
            rw [if_neg]
            intro hgt
            exact absurd (hs ⟨v, h⟩) (not_le_of_lt hgt)
          rw [hstep]
          exact ih (v + 1)
      · rfl

/-! ### The permutation (bijectivity) invariant -/

theorem crush_step_bij {S : Fin 256 → Fin 256} (v : Fin 128)
    (h : Function.Bijective S) : Function.Bijective (crush_step S v) := by
  unfold crush_step
  split
  · exact bij_swapS _ _ h
  · exact h

theorem update_S_bij {q : minspritz_s} (h : Function.Bijective q.S) :
    Function.Bijective (update q).S :=
  bij_swapS _ _ h

theorem iterate_update_S_bij : ∀ (r : Nat) {q : minspritz_s},
    Function.Bijective q.S → Function.Bijective (update^[r] q).S := by
  intro r
  induction r with
  | zero => intro q h; exact h
  | succ r ih =>
      intro q h
      rw [Function.iterate_succ_apply]
      exact ih (update_S_bij h)

theorem whip_S_bij {q : minspritz_s} (r : Nat)
    (h : Function.Bijective q.S) : Function.Bijective (whip q r).S := by
  show Function.Bijective (whip_loop r q).S
  rw [whip_loop_eq_iterate]
  exact iterate_update_S_bij r h

theorem crush_loop_S_bij : ∀ (fuel v : Nat) {q : minspritz_s},
    Function.Bijective q.S → Function.Bijective (crush_loop fuel v q).S := by
  intro fuel
  induction fuel with
  | zero => intro v q h; exact h
  | succ fuel ih =>
      intro v q h
      rw [crush_loop_succ]
      split
      · exact ih (v + 1) (crush_step_bij _ h)
      · exact h

theorem crush_S_bij {q : minspritz_s} (h : Function.Bijective q.S) :
    Function.Bijective (crush q).S :=
  crush_loop_S_bij 128 0 h

theorem shuffle_S_bij {q : minspritz_s} (h : Function.Bijective q.S) :
    Function.Bijective (shuffle q).S := by
  rw [shuffle_eq]
  show Function.Bijective
    (whip (crush (whip (crush (whip q 512)) 512)) 512).S
  exact whip_S_bij _ (crush_S_bij (whip_S_bij _ (crush_S_bij (whip_S_bij _ h))))

theorem absorb_nibble_S_bij {q : minspritz_s} (x : Fin 16)
    (h : Function.Bijective q.S) : Function.Bijective (absorb_nibble q x).S := by
  unfold absorb_nibble
  split
  · exact bij_swapS _ _ (shuffle_S_bij h)
  · exact bij_swapS _ _ h

theorem absorb_S_bij : ∀ (input : List (Fin 256)) {q : minspritz_s},
    Function.Bijective q.S → Function.Bijective (absorb q input).S := by
  intro input
  induction input with
  | nil => intro q h; exact h
  | cons b l ih =>
      intro q h
      rw [absorb_cons]
      exact ih (absorb_nibble_S_bij _ (absorb_nibble_S_bij _ h))

theorem absorb_stop_S (q : minspritz_s) :
    (absorb_stop q).S = (if q.a = 128 then shuffle q else q).S := rfl

theorem absorb_stop_S_bij {q : minspritz_s} (h : Function.Bijective q.S) :
    Function.Bijective (absorb_stop q).S := by
  rw [absorb_stop_S]
  split
  · exact shuffle_S_bij h
  · exact h

theorem output_S (q : minspritz_s) : (output q).2.S = q.S := rfl

theorem drip_S_bij {q : minspritz_s} (h : Function.Bijective q.S) :
    Function.Bijective (drip q).2.S := by
  unfold drip
  rw [output_S]
  split
  · exact update_S_bij (shuffle_S_bij h)
  · exact update_S_bij h

theorem squeeze_loop_S_bij : ∀ (r : Nat) {q : minspritz_s},
    Function.Bijective q.S → Function.Bijective (squeeze_loop r q).2.S := by
  intro r
  induction r with
  | zero => intro q h; exact h
  | succ r ih =>
      intro q h
      show Function.Bijective (squeeze_loop r (drip q).2).2.S
      exact ih (drip_S_bij h)

theorem squeeze_S_bij {q : minspritz_s} (r : Nat)
    (h : Function.Bijective q.S) : Function.Bijective (squeeze q r).2.S := by
  unfold squeeze
  split
  · exact squeeze_loop_S_bij r (shuffle_S_bij h)
  · exact squeeze_loop_S_bij r h

/-! ### The `w` cursor -/

theorem initialise_state_w (q : minspritz_s) : (initialise_state q).w = 1 := rfl

theorem crush_loop_w : ∀ (fuel v : Nat) (q : minspritz_s),
    (crush_loop fuel v q).w = q.w := by
  intro fuel
  induction fuel with
  | zero => intro v q; rfl
  | succ fuel ih =>
      intro v q
      rw [crush_loop_succ]
      split
      · rw [ih]
      · rfl

theorem crush_w (q : minspritz_s) : (crush q).w = q.w :=
  crush_loop_w 128 0 q

theorem fin_add_two_parity (x : Fin 256) : (x + 2).val % 2 = x.val % 2 := by
  have hx := x.isLt
  rw [Fin.add_def]
  show (x.val + 2) % 256 % 2 = x.val % 2
  omega

theorem shuffle_w_parity (q : minspritz_s) :
    (shuffle q).w.val % 2 = q.w.val % 2 := by
  rw [shuffle_eq]
  show (whip (crush (whip (crush (whip q 512)) 512)) 512).w.val % 2 = _
  rw [whip_w, fin_add_two_parity, crush_w, whip_w, fin_add_two_parity,
    crush_w, whip_w, fin_add_two_parity]

theorem absorb_nibble_w (q : minspritz_s) (x : Fin 16) :
    (absorb_nibble q x).w = (if q.a = 128 then shuffle q else q).w := rfl

theorem absorb_stop_w (q : minspritz_s) :
    (absorb_stop q).w = (if q.a = 128 then shuffle q else q).w := rfl

theorem output_w (q : minspritz_s) : (output q).2.w = q.w := rfl

theorem drip_w (q : minspritz_s) :
    (drip q).2.w = (if 0 < q.a then shuffle q else q).w := by
  show (output (update (if 0 < q.a then shuffle q else q))).2.w = _
  rw [output_w, update_w]

theorem absorb_nibble_w_parity (q : minspritz_s) (x : Fin 16) :
    (absorb_nibble q x).w.val % 2 = q.w.val % 2 := by
  rw [absorb_nibble_w]
  split
  · next h => rw [shuffle_w_parity]
  · rfl

theorem absorb_w_parity : ∀ (input : List (Fin 256)) (q : minspritz_s),
    (absorb q input).w.val % 2 = q.w.val % 2 := by
  intro input
  induction input with
  | nil => intro q; rfl
  | cons b l ih =>
      intro q
      rw [absorb_cons, ih, absorb_nibble_w_parity, absorb_nibble_w_parity]

theorem absorb_stop_w_parity (q : minspritz_s) :
    (absorb_stop q).w.val % 2 = q.w.val % 2 := by
  rw [absorb_stop_w]
  split
  · next h => rw [shuffle_w_parity]
  · rfl

theorem drip_w_parity (q : minspritz_s) :
    (drip q).2.w.val % 2 = q.w.val % 2 := by
  rw [drip_w]
  split
  · next h => rw [shuffle_w_parity]
  · rfl

theorem squeeze_loop_w_parity : ∀ (r : Nat) (q : minspritz_s),
    (squeeze_loop r q).2.w.val % 2 = q.w.val % 2 := by
  intro r
  induction r with
  | zero => intro q; rfl
  | succ r ih =>
      intro q
      show (squeeze_loop r (drip q).2).2.w.val % 2 = _
      rw [ih, drip_w_parity]

theorem squeeze_w_parity (q : minspritz_s) (r : Nat) :
    (squeeze q r).2.w.val % 2 = q.w.val % 2 := by
  show (squeeze_loop r (if 0 < q.a then shuffle q else q)).2.w.val % 2 = _
  rw [squeeze_loop_w_parity]
  split
  · next h => rw [shuffle_w_parity]
  · rfl

theorem whip_w_parity (q : minspritz_s) (r : Nat) :
    (whip q r).w.val % 2 = q.w.val % 2 := by
  rw [whip_w, fin_add_two_parity]

/-! ### Reachable states: every finite sequence of engine operations,
starting from `initialise_state` -/

/-- One engine operation, with its argument where the C function takes
one. -/
inductive SpritzOp where
  | opUpdate : SpritzOp
  | opCrush : SpritzOp
  | opNibble (x : Fin 16) : SpritzOp
  | opAbsorb (input : List (Fin 256)) : SpritzOp
  | opStop : SpritzOp
  | opWhip (r : Nat) : SpritzOp
  | opShuffle : SpritzOp
  | opDrip : SpritzOp
  | opSqueeze (r : Nat) : SpritzOp

/-- Apply one operation to the state (for the byte-returning operations,
keep the resulting state). -/
def exec_op (q : minspritz_s) : SpritzOp → minspritz_s
  | .opUpdate => update q
  | .opCrush => crush q
  | .opNibble x => absorb_nibble q x
  | .opAbsorb input => absorb q input
  | .opStop => absorb_stop q
  | .opWhip r => whip q r
  | .opShuffle => shuffle q
  | .opDrip => (drip q).2
  | .opSqueeze r => (squeeze q r).2

/-- The state reached from a freshly initialised engine after a finite
sequence of operations. -/
def run_ops (ops : List SpritzOp) : minspritz_s :=
  ops.foldl exec_op (initialise_state default)

theorem foldl_exec_preserve (P : minspritz_s → Prop)
    (hstep : ∀ q op, P q → P (exec_op q op)) :
    ∀ (ops : List SpritzOp) (q : minspritz_s), P q → P (ops.foldl exec_op q) := by
  intro ops
  induction ops with
  | nil => intro q h; exact h
  | cons o l ih => intro q h; exact ih _ (hstep q o h)

theorem exec_op_S_bij {q : minspritz_s} (op : SpritzOp)
    (h : Function.Bijective q.S) : Function.Bijective (exec_op q op).S := by
  cases op with
  | opUpdate => exact update_S_bij h
  | opCrush => exact crush_S_bij h
  | opNibble x => exact absorb_nibble_S_bij x h
  | opAbsorb input => exact absorb_S_bij input h
  | opStop => exact absorb_stop_S_bij h
  | opWhip r => exact whip_S_bij r h
  | opShuffle => exact shuffle_S_bij h
  | opDrip => exact drip_S_bij h
  | opSqueeze r => exact squeeze_S_bij r h

theorem exec_op_w_parity {q : minspritz_s} (op : SpritzOp) :
    (exec_op q op).w.val % 2 = q.w.val % 2 := by
  cases op with
  | opUpdate => rw [exec_op, update_w]
  | opCrush => rw [exec_op, crush_w]
  | opNibble x => exact absorb_nibble_w_parity q x
  | opAbsorb input => exact absorb_w_parity input q
  | opStop => exact absorb_stop_w_parity q
  | opWhip r => exact whip_w_parity q r
  | opShuffle => exact shuffle_w_parity q
  | opDrip => exact drip_w_parity q
  | opSqueeze r => exact squeeze_w_parity q r

theorem run_ops_S_bij (ops : List SpritzOp) :
    Function.Bijective (run_ops ops).S := by
  refine foldl_exec_preserve (fun q => Function.Bijective q.S)
    (fun q op h => exec_op_S_bij op h) ops _ ?_
  show Function.Bijective (fun v : Fin 256 => v)
  exact Function.bijective_id

theorem run_ops_w_odd (ops : List SpritzOp) : (run_ops ops).w.val % 2 = 1 := by
  refine foldl_exec_preserve (fun q => q.w.val % 2 = 1)
    (fun q op h => by
      show (exec_op q op).w.val % 2 = 1
      rw [exec_op_w_parity op]
      exact h) ops _ ?_
  rfl

/-! ### Remaining support lemmas -/

theorem idx_self (x : Fin 256) : idx x.val = x := by
  apply Fin.ext
  show x.val % 256 = x.val
  exact Nat.mod_eq_of_lt x.isLt

theorem squeeze_loop_length : ∀ (r : Nat) (q : minspritz_s),
    (squeeze_loop r q).1.length = r := by
  intro r
  induction r with
  | zero => intro q; rfl
  | succ r ih =>
      intro q
      show ((drip q).1 :: (squeeze_loop r (drip q).2).1).length = r + 1
      rw [List.length_cons, ih]

theorem squeeze_length (q : minspritz_s) (r : Nat) :
    (squeeze q r).1.length = r := by
  show (squeeze_loop r (if 0 < q.a then shuffle q else q)).1.length = r
  rw [squeeze_loop_length]

theorem minminspritz_stream_length (m : List (Fin 256)) :
    (minminspritz_stream m).length = 32 :=
  squeeze_length (absorb (initialise_state default) m) 32

set_option maxRecDepth 4000 in
/-- `LOW` is the C macro `b & 0x0f`. -/
theorem LOW_val_and : ∀ b : Fin 256, (LOW b).val = b.val &&& 15 := by decide

set_option maxRecDepth 4000 in
/-- `HIGH` is the C macro `(b >> 4) & 0x0f`. -/
theorem HIGH_val_shift : ∀ b : Fin 256,
    (HIGH b).val = (b.val >>> 4) &&& 15 := by decide

/-- `absorb` is the fold of `absorb_nibble` over the nibble expansion of
the input, low nibble of each byte first. -/
theorem absorb_eq_nibble_foldl : ∀ (input : List (Fin 256)) (q : minspritz_s),
    absorb q input =
      (input.flatMap (fun b => [LOW b, HIGH b])).foldl absorb_nibble q := by
  intro input
  induction input with
  | nil => intro q; rfl
  | cons b l ih =>
      intro q
      rw [absorb_cons, ih]
      simp only [List.flatMap_cons, List.cons_append, List.nil_append,
        List.foldl_cons]

/-- `absorb_nibble` characterised: conditional shuffle, one swap (as a
transposition of `S[a mod 256]` and `S[128 + x]`), then `a + 1`. -/
theorem absorb_nibble_eq (q : minspritz_s) (x : Fin 16) :
    absorb_nibble q x =
      (let q1 := if q.a = 128 then shuffle q else q
       { q1 with S := q1.S ∘ Equiv.swap (idx q1.a.val) (nib_ix x),
                 a := q1.a + 1 }) := by
  simp only [absorb_nibble, swapS_eq_comp, idx_self]

theorem crush_loop_fields : ∀ (fuel v : Nat) (q : minspritz_s),
    (crush_loop fuel v q).i = q.i ∧ (crush_loop fuel v q).j = q.j ∧
    (crush_loop fuel v q).k = q.k ∧ (crush_loop fuel v q).z = q.z ∧
    (crush_loop fuel v q).a = q.a := by
  intro fuel
  induction fuel with
  | zero => intro v q; exact ⟨rfl, rfl, rfl, rfl, rfl⟩
  | succ fuel ih =>
      intro v q
      rw [crush_loop_succ]
      split
      · next h =>
          obtain ⟨h1, h2, h3, h4, h5⟩ :=
            ih (v + 1) { q with S := crush_step q.S ⟨v, h⟩ }
          exact ⟨h1, h2, h3, h4, h5⟩
      · exact ⟨rfl, rfl, rfl, rfl, rfl⟩

theorem crush_i (q : minspritz_s) : (crush q).i = q.i :=
  (crush_loop_fields 128 0 q).1

theorem crush_j (q : minspritz_s) : (crush q).j = q.j :=
  (crush_loop_fields 128 0 q).2.1

theorem crush_k (q : minspritz_s) : (crush q).k = q.k :=
  (crush_loop_fields 128 0 q).2.2.1

/-! ### The spec-modelled stream operation and the allocation model of
squeeze -/

/-- The stream operation as the specification describes it — `stream(key,
n) = initialize; absorb(key); squeeze(n)`, returning `n` bytes for a
caller-chosen `n`.  Written from the spec's words, to be compared against
the source's `minminspritz_stream`, which takes no length parameter. -/
def stream_as_specified (key : List (Fin 256)) (n : Nat) : List (Fin 256) :=
  let q := initialise_state default
  let q := absorb q key
  (squeeze q n).1

theorem stream_as_specified_length (key : List (Fin 256)) (n : Nat) :
    (stream_as_specified key n).length = n :=
  squeeze_length (absorb (initialise_state default) key) n

/-- Allocation-explicit model of `squeeze`: the C code obtains the output
buffer from `malloc` and uses it with no NULL check, so the allocation
outcome (modelled by `malloc_ok`; `false` is `malloc` returning NULL)
changes only which pointer the caller receives — `none` stands for the
NULL pointer handed back after the loop has stored its bytes through it —
while the state transformation is performed unconditionally. -/
def squeeze_alloc (malloc_ok : Bool) (q : minspritz_s) (r : Nat) :
    Option (List (Fin 256)) × minspritz_s :=
  let q := if 0 < q.a then shuffle q else q
  let res := squeeze_loop r q
  (if malloc_ok then some res.1 else none, res.2)

/-! ### The claims -/

/-- C1: one `update` call performs exactly one step: `i` becomes `i + w`,
then `j` becomes `k + S[(j + S[i]) mod 256]`, then `k` becomes
`i + k + S[j mod 256]`, then `S[i mod 256]` and `S[j mod 256]` are swapped,
with every addition wrapping mod 256; `update` leaves `z`, `a`, `w`
unchanged, and its only change to `S` is that single transposition; and
the operations that do not go through `update` — `crush`, `output`, and
`absorb_nibble` / `absorb_stop` beyond their conditional `shuffle` — leave
the cursor triple `(i, j, k)` unchanged. -/
theorem C1_update_single_step : ∀ q : minspritz_s,
    ((update q).i = idx (q.i.val + q.w.val) ∧
     (update q).j = idx (q.k.val +
       (q.S (idx (q.j.val + (q.S (idx (q.i.val + q.w.val))).val))).val) ∧
     (update q).k = idx ((update q).i.val + q.k.val +
       (q.S ((update q).j)).val) ∧
     (update q).S = q.S ∘ Equiv.swap ((update q).i) ((update q).j) ∧
     (update q).z = q.z ∧ (update q).a = q.a ∧ (update q).w = q.w) ∧
    ((crush q).i = q.i ∧ (crush q).j = q.j ∧ (crush q).k = q.k) ∧
    ((output q).2.i = q.i ∧ (output q).2.j = q.j ∧ (output q).2.k = q.k) ∧
    ((absorb_stop q).i = (if q.a = 128 then shuffle q else q).i ∧
     (absorb_stop q).j = (if q.a = 128 then shuffle q else q).j ∧
     (absorb_stop q).k = (if q.a = 128 then shuffle q else q).k) ∧
    (∀ x : Fin 16,
      (absorb_nibble q x).i = (if q.a = 128 then shuffle q else q).i ∧
      (absorb_nibble q x).j = (if q.a = 128 then shuffle q else q).j ∧
      (absorb_nibble q x).k = (if q.a = 128 then shuffle q else q).k) := by
  intro q
  refine ⟨⟨?_, ?_, ?_, ?_, rfl, rfl, rfl⟩,
    ⟨crush_i q, crush_j q, crush_k q⟩, ⟨rfl, rfl, rfl⟩, ⟨rfl, rfl, rfl⟩,
    fun x => ⟨rfl, rfl, rfl⟩⟩
  · exact idx_fin_add q.i q.w
  · show q.k + q.S (q.j + q.S (q.i + q.w)) = _
    rw [idx_fin_add q.i q.w, idx_fin_add q.j, idx_fin_add q.k]
  · exact fin_add3_val (q.i + q.w) q.k (q.S ((update q).j))
  · exact swapS_eq_comp ((update q).i) ((update q).j) q.S

/-- C2: for every state reachable by a finite sequence of `update`,
`crush`, `absorb_nibble`, `absorb`, `absorb_stop`, `whip`, `shuffle`,
`drip`, `squeeze` calls from a freshly initialised engine, the array `S`
is a bijection on the byte values 0..255; since the sequence is arbitrary,
`S` is in particular a bijection immediately after every individual
`update`, `crush`, `absorb_nibble` and `shuffle` call. -/
theorem C2_S_permutation_invariant : ∀ ops : List SpritzOp,
    Function.Bijective (run_ops ops).S :=
  run_ops_S_bij

/-- C3: `absorb` processes the input bytes in order, absorbing for each
byte first the low nibble `b & 0x0F` and then the high nibble
`(b >> 4) & 0x0F`; and `absorb_nibble(x)` with `x` in 0..15 first calls
`shuffle` exactly when `a = 128`, then swaps `S[a mod 256]` with
`S[128 + x]`, then increments `a` by one. -/
theorem C3_absorb_nibblewise :
    (∀ (q : minspritz_s) (input : List (Fin 256)),
      absorb q input =
        (input.flatMap (fun b => [LOW b, HIGH b])).foldl absorb_nibble q) ∧
    (∀ (q : minspritz_s) (b : Fin 256) (l : List (Fin 256)),
      absorb q (b :: l) =
        absorb (absorb_nibble (absorb_nibble q (LOW b)) (HIGH b)) l) ∧
    (∀ b : Fin 256,
      (LOW b).val = b.val &&& 15 ∧ (HIGH b).val = (b.val >>> 4) &&& 15) ∧
    (∀ (q : minspritz_s) (x : Fin 16),
      absorb_nibble q x =
        (let q1 := if q.a = 128 then shuffle q else q
         { q1 with S := q1.S ∘ Equiv.swap (idx q1.a.val) (nib_ix x),
                   a := q1.a + 1 })) :=
  ⟨fun q input => absorb_eq_nibble_foldl input q, absorb_cons,
   fun b => ⟨LOW_val_and b, HIGH_val_shift b⟩, absorb_nibble_eq⟩

/-- C4: `shuffle` performs exactly `whip(512); crush(); whip(512);
crush(); whip(512)` and then sets `a` to 0, and every `whip(r)` performs
exactly `r` `update` steps followed by `w += 2`. -/
theorem C4_shuffle_fixed_sequence :
    (∀ q : minspritz_s,
      shuffle q =
        { whip (crush (whip (crush (whip q 512)) 512)) 512 with a := 0 }) ∧
    (∀ (q : minspritz_s) (r : Nat),
      whip q r = { update^[r] q with w := (update^[r] q).w + 2 }) := by
  refine ⟨shuffle_eq, fun q r => ?_⟩
  show { whip_loop r q with w := (whip_loop r q).w + 2 } = _
  rw [whip_loop_eq_iterate r q]

/-- C5: `w` is odd at every observable point: `initialise_state` sets `w`
to 1; `whip(r)` leaves `w` equal to the old `w` plus 2 (wrapping mod 256);
`update`, `crush` and `output` do not change `w`, and `absorb_nibble` /
`absorb_stop` change it only through their conditional `shuffle`; and
after any finite sequence of operations from a fresh engine, `w` is
odd. -/
theorem C5_w_odd_invariant :
    (∀ q0 : minspritz_s, (initialise_state q0).w = 1) ∧
    (∀ ops : List SpritzOp, Odd (run_ops ops).w.val) ∧
    (∀ (q : minspritz_s) (r : Nat), (whip q r).w = q.w + 2) ∧
    (∀ q : minspritz_s, (update q).w = q.w) ∧
    (∀ q : minspritz_s, (crush q).w = q.w) ∧
    (∀ q : minspritz_s, (output q).2.w = q.w) ∧
    (∀ q : minspritz_s,
      (absorb_stop q).w = (if q.a = 128 then shuffle q else q).w) ∧
    (∀ (q : minspritz_s) (x : Fin 16),
      (absorb_nibble q x).w = (if q.a = 128 then shuffle q else q).w) :=
  ⟨initialise_state_w,
   fun ops => Nat.odd_iff.mpr (run_ops_w_odd ops),
   whip_w, update_w, crush_w, output_w, absorb_stop_w, absorb_nibble_w⟩

/-- C6 (amended): the stream entry point `minminspritz_stream` takes only
a key — it has no length parameter — and for every key it performs
initialise; absorb(key); squeeze(32), returning exactly 32 bytes; the
output length is fixed at 32, not caller-chosen. -/
theorem C6_stream_fixed_32 : ∀ key : List (Fin 256),
    minminspritz_stream key = stream_as_specified key 32 ∧
    (minminspritz_stream key).length = 32 :=
  fun key => ⟨rfl, minminspritz_stream_length key⟩

/-- C6 counterexample: the claim says the caller chooses the length `n`
and receives exactly `n` bytes; but the code's stream entry point, which
has no length argument, does not agree with the claimed
`initialize; absorb(key); squeeze(n)` behaviour at key `[]` and requested
length 5: it returns its hard-coded 32 bytes. -/
theorem C6_stream_not_caller_length :
    minminspritz_stream [] ≠ stream_as_specified [] 5 := by
  intro h
  have h32 := minminspritz_stream_length ([] : List (Fin 256))
  rw [h, stream_as_specified_length] at h32
  exact absurd h32 (by decide)

/-- C7: the C code performs no check on the result of `malloc`: in the
allocation-explicit model of `squeeze`, when allocation fails the caller
receives the NULL pointer (`none`) with no error indication — never an
explicit allocation-failure error — and when it succeeds the caller
receives exactly the bytes of `squeeze`. -/
theorem C7_malloc_unchecked : ∀ (q : minspritz_s) (r : Nat),
    (squeeze_alloc false q r).1 = none ∧
    (squeeze_alloc true q r).1 = some (squeeze q r).1 :=
  fun _ _ => ⟨rfl, rfl⟩

/-- C8: one `output` call mutates only `z` and returns the new `z`,
computed as `S[(j + S[(i + S[(z + k) mod 256]) mod 256]) mod 256]` with
the three permutation lookups nested in exactly that order; `i`, `j`, `k`,
`a`, `w` and `S` are unchanged. -/
theorem C8_output_frame : ∀ q : minspritz_s,
    (output q).1 = (output q).2.z ∧
    (output q).2.z = q.S (idx (q.j.val + (q.S (idx (q.i.val +
      (q.S (idx (q.z.val + q.k.val))).val))).val)) ∧
    (output q).2.i = q.i ∧ (output q).2.j = q.j ∧ (output q).2.k = q.k ∧
    (output q).2.a = q.a ∧ (output q).2.w = q.w ∧ (output q).2.S = q.S := by
  intro q
  refine ⟨rfl, ?_, rfl, rfl, rfl, rfl, rfl, rfl⟩
  show q.S (q.j + q.S (q.i + q.S (q.z + q.k))) = _
  rw [idx_fin_add q.z q.k, idx_fin_add q.i, idx_fin_add q.j]

/-- C9: hash is deterministic: its output depends only on the message and
the requested length — running it from two arbitrary prior states (the C
code's uninitialised stack local) yields byte-identical results, equal to
the canonical `minspritz_hash m r`. -/
theorem C9_hash_deterministic :
    ∀ (q0 q1 : minspritz_s) (m : List (Fin 256)) (r : Fin 256),
      minspritz_hash_from q0 m r = minspritz_hash_from q1 m r ∧
      minspritz_hash_from q0 m r = minspritz_hash m r :=
  fun _ _ _ _ => ⟨rfl, rfl⟩

/-- C10: after one `crush` call the postcondition `S[v] ≤ S[255 - v]`
holds for every `v` in 0..127, so a second `crush` performs no swap:
`crush` is idempotent. -/
theorem C10_crush_idempotent : ∀ q : minspritz_s,
    (∀ v : Fin 128, (crush q).S (lo_ix v) ≤ (crush q).S (hi_ix v)) ∧
    crush (crush q) = crush q := by
  intro q
  have hpost : ∀ v : Fin 128, (crush q).S (lo_ix v) ≤ (crush q).S (hi_ix v) :=
    fun v => crush_loop_post 128 0 q rfl v (Nat.zero_le _)
  refine ⟨hpost, ?_⟩
  show crush_loop 128 0 (crush q) = crush q
  exact crush_loop_fix hpost 128 0
